import Mathlib

set_option maxHeartbeats 1000000
set_option maxRecDepth 8000

namespace LiiProcessor

/-! Shallow embedding of `src/lii_processor.py`: the Chinese-numeral
normalizer `cn_to_int` and the structural reconstruction pass
`LegalStructureEngine.parse_and_store`, together with the two SQL
upserts it issues (`legal_metadata` and `legal_nodes` tables are
modelled as in-memory row lists in insertion order).

Python strings are modelled as Lean `String` / `List Char` (both are
sequences of Unicode scalar values, matching Python code-point
indexing).  Whitespace (`str.strip`, regex `\s`) is modelled by the
ASCII whitespace characters, which are the ones occurring in the
documents this program processes; `str.lower` is modelled by the ASCII
`Char.toLower`, adequate for the ASCII `doc_id` values used. -/

/-- Python dict lookup `CN_NUM.get(char, 0)`, with `CN_NUM` from the source. -/
def cnNumGet (c : Char) : Nat :=
  if c = '零' then 0
  else if c = '一' then 1
  else if c = '二' then 2
  else if c = '三' then 3
  else if c = '四' then 4
  else if c = '五' then 5
  else if c = '六' then 6
  else if c = '七' then 7
  else if c = '八' then 8
  else if c = '九' then 9
  else if c = '十' then 10
  else 0

/-- The characters the numeral scanner knows: the `CN_NUM` keys plus the
marker `百` (spec-side notion used to state claim C8). -/
def cnKnown (c : Char) : Bool :=
  c == '零' || c == '一' || c == '二' || c == '三' || c == '四' || c == '五' ||
  c == '六' || c == '七' || c == '八' || c == '九' || c == '十' || c == '百'

/-- The `for char in cn` loop of `cn_to_int`, carrying `res` and `temp`. -/
def cnLoop : List Char → Nat → Nat → Nat
  | [], res, temp => res + temp
  | ch :: rest, res, temp =>
    if ch = '百' then cnLoop rest (res + (if temp ≠ 0 then temp else 1) * 100) 0
    else if ch = '十' then cnLoop rest (res + (if temp ≠ 0 then temp else 1) * 10) 0
    else cnLoop rest res (cnNumGet ch)

/-- `cn_to_int(cn)`: `None` and the empty string return 0 (`if not cn`),
otherwise the left-to-right scan. -/
def cn_to_int : Option String → Nat
  | none => 0
  | some s => if s = "" then 0 else cnLoop s.data 0 0

/-- ASCII whitespace, modelling Python `str.strip` / regex `[\s\n]`. -/
def isPySpace (c : Char) : Bool :=
  c == ' ' || c == '\t' || c == '\n' || c == '\r' || c == '\x0B' || c == '\x0C'

/-- Remove a trailing whitespace run (the right half of `str.strip`). -/
def rstripPy (cs : List Char) : List Char :=
  (cs.reverse.dropWhile isPySpace).reverse

/-- Python `str.strip()` on the character list. -/
def pyStripL (cs : List Char) : List Char :=
  rstripPy (cs.dropWhile isPySpace)

/-- Python `str.strip()`. -/
def pyStrip (s : String) : String :=
  String.mk (pyStripL s.data)

/-- Python `str.lower()` (ASCII). -/
def pyLower (s : String) : String :=
  String.mk (s.data.map Char.toLower)

/-- `text.replace('\n', '').replace(' ', '')` from the content-append step. -/
def pyClean (s : String) : String :=
  String.mk ((s.data.filter (fun c => !(c == '\n'))).filter (fun c => !(c == ' ')))

/-- The character class `[一二三四五六七八九十百]` of the chapter pattern. -/
def isCnNumChar (c : Char) : Bool :=
  c == '一' || c == '二' || c == '三' || c == '四' || c == '五' || c == '六' ||
  c == '七' || c == '八' || c == '九' || c == '十' || c == '百'

/-- The character class `[0-9一二三四五六七八九十百]` of the article pattern. -/
def isArtNumChar (c : Char) : Bool :=
  c.isDigit || isCnNumChar c

/-- Anchored match of `第([cls]+)close` at the start of the text, returning
the captured numeral group.  Because `close` is never a member of the
class, the greedy one-or-more repetition of the regex engine matches
exactly the maximal class run, so this deterministic form is equivalent
to `re.match` on the source patterns. -/
def matchHeader (cls : Char → Bool) (close : Char) : List Char → Option (List Char)
  | [] => none
  | c :: rest =>
    if c = '第' then
      let run := rest.takeWhile cls
      if run.isEmpty then none
      else
        match rest.dropWhile cls with
        | c2 :: _ => if c2 = close then some run else none
        | [] => none
    else none

/-- `re.match(r'^第([一二三四五六七八九十百]+)章', text)`, as the captured group. -/
def chapterGroup (cs : List Char) : Option (List Char) :=
  matchHeader isCnNumChar '章' cs

/-- `re.match(r'^第([0-9一二三四五六七八九十百]+)条', text)`, as the captured group. -/
def articleGroup (cs : List Char) : Option (List Char) :=
  matchHeader isArtNumChar '条' cs

/-- `re.search(r'[\s\n]+(第[0-9一二三四五六七八九十百]+条)', text).start()`:
the index of the leftmost position starting a whitespace run that is
immediately followed by an embedded article header.  (`\s` already
contains `\n`; a match can only begin at a whitespace character, and
giving back whitespace from the greedy run can never expose the literal
`第`, so the first-maximal-run test is exactly the regex search.) -/
def findSectionSplit : List Char → Option Nat
  | [] => none
  | c :: rest =>
    if isPySpace c && (matchHeader isArtNumChar '条' ((c :: rest).dropWhile isPySpace)).isSome
    then some 0
    else (findSectionSplit rest).map (· + 1)

/-- Python substring test `pat in text`. -/
def containsSub (pat : List Char) : List Char → Bool
  | [] => pat.isEmpty
  | c :: rest => pat.isPrefixOf (c :: rest) || containsSub pat rest

/-- One literal alternative of the noise denylist, anchored at the start. -/
def startsWithLit (s : String) (cs : List Char) : Bool :=
  s.data.isPrefixOf cs

/-- The alternative `第.*页`: `.` matches anything but a newline, so this
holds iff `页` occurs after the leading `第` before any newline. -/
def matchDiYe : List Char → Bool
  | [] => false
  | c :: rest => c == '第' && ((rest.takeWhile (fun x => !(x == '\n'))).contains '页')

/-- The alternative `-\s*\d+\s*-` (the classes are pairwise disjoint, so
greedy matching is deterministic). -/
def matchPageNum : List Char → Bool
  | [] => false
  | c :: rest =>
    c == '-' &&
      (let r1 := rest.dropWhile isPySpace
       let digits := r1.takeWhile Char.isDigit
       !digits.isEmpty &&
         (match (r1.dropWhile isPySpace).drop digits.length |>.dropWhile isPySpace with
          | '-' :: _ => true
          | _ => false))

/-- `re.match(r'^(证监会|页码|\[source|中华人民共和国|第.*页|-\s*\d+\s*-)', text)`. -/
def noiseMatch (cs : List Char) : Bool :=
  startsWithLit "证监会" cs || startsWithLit "页码" cs || startsWithLit "[source" cs ||
  startsWithLit "中华人民共和国" cs || matchDiYe cs || matchPageNum cs

/-- Python `str.isdigit()` restricted to the article-group alphabet
(only ASCII digits of that alphabet are `isdigit`). -/
def pyIsdigit (l : List Char) : Bool :=
  !l.isEmpty && l.all Char.isDigit

/-- Python `int(...)` on an ASCII-digit string. -/
def digitsToNat (l : List Char) : Nat :=
  l.foldl (fun a c => a * 10 + (c.toNat - '0'.toNat)) 0

/-- `a_val = int(a_num_str) if a_num_str.isdigit() else cn_to_int(a_num_str)`. -/
def article_val (grp : List Char) : Nat :=
  if pyIsdigit grp then digitsToNat grp else cn_to_int (some (String.mk grp))

/-- A row of the `legal_nodes` table. -/
structure Node where
  doc_id : String
  uri : String
  label : String
  num_val : Nat
  content : String
  parent_uri : Option String
deriving DecidableEq, Repr

/-- A row of the `legal_metadata` table. -/
structure MetaRow where
  doc_id : String
  title : String
  creator : String
  pub_date : String
deriving DecidableEq, Repr

/-- The `metadata` argument of `parse_and_store`. -/
structure Metadata where
  title : String
  creator : String
  date : String
deriving DecidableEq, Repr

/-- The persistent store: both tables, rows in insertion order. -/
structure Store where
  legal_metadata : List MetaRow
  legal_nodes : List Node
deriving DecidableEq, Repr

/-- `_save_node`: `INSERT INTO legal_nodes ... ON CONFLICT (uri) DO UPDATE SET
content = EXCLUDED.content, parent_uri = EXCLUDED.parent_uri, label =
EXCLUDED.label` — on conflict, `doc_id` and `num_val` stay as stored. -/
def save_node (db : List Node) (doc_id uri label : String) (num : Nat)
    (content : String) (parent : Option String) : List Node :=
  if db.any (fun r => r.uri == uri) then
    db.map (fun r => if r.uri = uri then { r with label := label, content := content, parent_uri := parent } else r)
  else
    db ++ [⟨doc_id, uri, label, num, content, parent⟩]

/-- The content-append `UPDATE legal_nodes SET content = content || %s WHERE
uri = %s`, with parameters `(frag, uri)` in source order. -/
def append_content (db : List Node) (frag uri : String) : List Node :=
  db.map (fun r => if r.uri = uri then { r with content := r.content ++ frag } else r)

/-- `INSERT INTO legal_metadata ... ON CONFLICT (doc_id) DO UPDATE SET
title = EXCLUDED.title` — note the source updates only `title` on conflict. -/
def upsert_metadata (tbl : List MetaRow) (doc_id title creator date : String) : List MetaRow :=
  if tbl.any (fun m => m.doc_id == doc_id) then
    tbl.map (fun m => if m.doc_id = doc_id then { m with title := title } else m)
  else
    tbl ++ [⟨doc_id, title, creator, date⟩]

/-- The scan state of one `parse_and_store` pass (reset at every call). -/
structure Ctrl where
  current_c_uri : Option String
  active_uri : Option String
  has_entered_body : Bool
deriving DecidableEq, Repr

/-- Scan state plus the `legal_nodes` table being written. -/
structure PassState where
  ctrl : Ctrl
  nodes : List Node
deriving DecidableEq, Repr

/-- `f"/{doc_id.lower()}/c{c_val}"`. -/
def mkChapterUri (doc_id : String) (v : Nat) : String :=
  "/" ++ pyLower doc_id ++ "/c" ++ toString v

/-- Section C of the loop body: append cleaned text to the active node,
after the noise denylist, only once the body has been entered. -/
def contentStep (st : PassState) (text : String) : PassState :=
  match st.ctrl.has_entered_body, st.ctrl.active_uri with
  | true, some u =>
    if noiseMatch text.data then st
    else { st with nodes := append_content st.nodes ("\n" ++ pyClean text) u }
  | _, _ => st

/-- Section B of the loop body: the article-boundary test and node save
(with the chapter-1 fallback when no chapter was ever opened), falling
through to Section C when the text is no article header. -/
def articleStep (doc_id : String) (st : PassState) (text : String) : PassState :=
  match articleGroup text.data with
  | some grp =>
    let a_val := article_val grp
    let c_uri := match st.ctrl.current_c_uri with
                 | some c => c
                 | none => "/" ++ pyLower doc_id ++ "/c1"
    let article_uri := c_uri ++ "/a" ++ toString a_val
    { ctrl := { current_c_uri := some c_uri, active_uri := some article_uri, has_entered_body := true },
      nodes := save_node st.nodes doc_id article_uri "section" a_val text (some c_uri) }
  | none => contentStep st text

/-- One iteration of the `for item, level in doc.iterate_items()` loop:
skip empty text, strip, Section A (chapter test, TOC suppression,
merged-boundary split), then fall through to Sections B and C. -/
def stepBlock (doc_id : String) (st : PassState) (raw : String) : PassState :=
  if raw = "" then st
  else
    let text := pyStrip raw
    match chapterGroup text.data with
    | some grp =>
      if !st.ctrl.has_entered_body && (containsSub "目录".data text.data || containsSub "...".data text.data)
      then st
      else
        let c_val := cn_to_int (some (String.mk grp))
        let c_uri := mkChapterUri doc_id c_val
        let st1 : PassState :=
          { ctrl := { current_c_uri := some c_uri, active_uri := some c_uri,
                      has_entered_body := st.ctrl.has_entered_body },
            nodes := st.nodes }
        match findSectionSplit text.data with
        | some i =>
          let chapter_title := String.mk (pyStripL (text.data.take i))
          let st2 : PassState :=
            { st1 with nodes := save_node st1.nodes doc_id c_uri "chapter" c_val chapter_title none }
          let text2 := String.mk (pyStripL (text.data.drop i))
          articleStep doc_id st2 text2
        | none =>
          { st1 with nodes := save_node st1.nodes doc_id c_uri "chapter" c_val text none }
    | none => articleStep doc_id st text

/-- The fresh scan state at the top of every `parse_and_store` call. -/
def initCtrl : Ctrl :=
  { current_c_uri := none, active_uri := none, has_entered_body := false }

/-- `parse_and_store`: metadata upsert, then the linear scan over the
block stream (the texts of the converter items), committed as the new
store. -/
def parse_and_store (store : Store) (doc_id : String) (metadata : Metadata)
    (blocks : List String) : Store :=
  { legal_metadata :=
      upsert_metadata store.legal_metadata doc_id metadata.title metadata.creator metadata.date,
    legal_nodes :=
      (blocks.foldl (stepBlock doc_id) { ctrl := initCtrl, nodes := store.legal_nodes }).nodes }

/-- The empty store. -/
def emptyStore : Store := ⟨[], []⟩

/-- The canonical Chinese numeral for `n ≤ 999` (spec-side denotation used
to state the Numeral Normalizer contract): hundreds digit with `百`, an
interior `零` for a skipped tens place, tens digit with `十` (the bare
`十` form for 10–19), units digit. -/
def cnDig : Nat → String
  | 1 => "一"
  | 2 => "二"
  | 3 => "三"
  | 4 => "四"
  | 5 => "五"
  | 6 => "六"
  | 7 => "七"
  | 8 => "八"
  | 9 => "九"
  | _ => ""

/-- Canonical numeral writer for the refinement statement of claim C5. -/
def cnCanon (n : Nat) : String :=
  if n = 0 then "零"
  else
    let h := n / 100
    let t := n / 10 % 10
    let u := n % 10
    (if h > 0 then cnDig h ++ "百" else "")
      ++ (if t > 0 then (if h > 0 ∨ t > 1 then cnDig t else "") ++ "十"
          else if h > 0 ∧ u > 0 then "零" else "")
      ++ (if u > 0 then cnDig u else "")

/-! The write operations a pass issues against `legal_nodes`.  A pass is
re-expressed as a control-state trace plus a list of such operations;
this factoring carries the idempotence proof (claim C3). -/

/-- One write against the `legal_nodes` table. -/
inductive Op where
  | save : String → String → String → Nat → String → Option String → Op
  | append : String → String → Op
deriving DecidableEq, Repr

/-- The uri a write addresses. -/
def opUri : Op → String
  | .save _ u _ _ _ _ => u
  | .append u _ => u

/-- Execute one write against the table. -/
def applyOp (db : List Node) : Op → List Node
  | .save d u l n c p => save_node db d u l n c p
  | .append u f => append_content db f u

/-- Execute a write sequence left to right. -/
def applyOps (db : List Node) (ops : List Op) : List Node :=
  ops.foldl applyOp db

/-- Effect of one write on a single row already stored under its uri. -/
def rowT : Op → Node → Node
  | .save _ _ l _ c p, r => { r with label := l, content := c, parent_uri := p }
  | .append _ f, r => { r with content := r.content ++ f }

/-- Conditional per-row effect: touch the row only when the uri matches. -/
def rowStep (r : Node) (op : Op) : Node :=
  if r.uri = opUri op then rowT op r else r

/-- Fold the conditional per-row effect over a write sequence. -/
def rowFold (ops : List Op) (r : Node) : Node :=
  ops.foldl rowStep r

/-- Fold the unconditional per-row effect over a write sequence. -/
def rowTFold (ops : List Op) (r : Node) : Node :=
  ops.foldl (fun x op => rowT op x) r

/-- Uris saved by a write sequence, accumulated onto `S`. -/
def savesAcc (S : List String) : List Op → List String
  | [] => S
  | .save _ u _ _ _ _ :: rest => savesAcc (u :: S) rest
  | .append _ _ :: rest => savesAcc S rest

/-- Well-formed write sequence relative to already-saved uris `S`: every
append addresses a uri saved before it. -/
def wfFrom (S : List String) : List Op → Prop
  | [] => True
  | .save _ u _ _ _ _ :: rest => wfFrom (u :: S) rest
  | .append u _ :: rest => u ∈ S ∧ wfFrom S rest

/-- The active uri, when set, is among the saved uris `S`. -/
def activeOK (S : List String) (ctrl : Ctrl) : Prop :=
  ∀ u, ctrl.active_uri = some u → u ∈ S

/-- A per-uri write trace whose head, if any, is a save. -/
def headSave : List Op → Prop
  | [] => True
  | .save _ _ _ _ _ _ :: _ => True
  | .append _ _ :: _ => False

/-- The uris of the stored rows. -/
def urisOf (db : List Node) : List String :=
  db.map (fun r => r.uri)

/-! Basic facts about the per-row effects. -/

theorem rowT_save_eq (d u l : String) (n : Nat) (c : String) (p : Option String) (r : Node) :
    rowT (Op.save d u l n c p) r = ⟨r.doc_id, r.uri, l, r.num_val, c, p⟩ := rfl

theorem uri_rowT (op : Op) (r : Node) : (rowT op r).uri = r.uri := by
  cases op <;> rfl

theorem doc_rowT (op : Op) (r : Node) : (rowT op r).doc_id = r.doc_id := by
  cases op <;> rfl

theorem num_rowT (op : Op) (r : Node) : (rowT op r).num_val = r.num_val := by
  cases op <;> rfl

theorem uri_rowStep (r : Node) (op : Op) : (rowStep r op).uri = r.uri := by
  unfold rowStep; split
  · exact uri_rowT op r
  · rfl

theorem rowFold_nil (r : Node) : rowFold [] r = r := rfl

theorem rowFold_cons (op : Op) (rest : List Op) (r : Node) :
    rowFold (op :: rest) r = rowFold rest (rowStep r op) := rfl

theorem rowTFold_nil (r : Node) : rowTFold [] r = r := rfl

theorem rowTFold_cons (op : Op) (rest : List Op) (r : Node) :
    rowTFold (op :: rest) r = rowTFold rest (rowT op r) := rfl

theorem rowTFold_append (a b : List Op) (r : Node) :
    rowTFold (a ++ b) r = rowTFold b (rowTFold a r) := by
  unfold rowTFold; exact List.foldl_append _ _ _ _

theorem uri_rowFold (ops : List Op) (r : Node) : (rowFold ops r).uri = r.uri := by
  induction ops generalizing r with
  | nil => rfl
  | cons op rest ih => rw [rowFold_cons, ih, uri_rowStep]

theorem doc_rowFold (ops : List Op) (r : Node) : (rowFold ops r).doc_id = r.doc_id := by
  induction ops generalizing r with
  | nil => rfl
  | cons op rest ih =>
    rw [rowFold_cons, ih]
    unfold rowStep; split
    · exact doc_rowT op r
    · rfl

theorem num_rowFold (ops : List Op) (r : Node) : (rowFold ops r).num_val = r.num_val := by
  induction ops generalizing r with
  | nil => rfl
  | cons op rest ih =>
    rw [rowFold_cons, ih]
    unfold rowStep; split
    · exact num_rowT op r
    · rfl

theorem uri_rowTFold (ops : List Op) (r : Node) : (rowTFold ops r).uri = r.uri := by
  induction ops generalizing r with
  | nil => rfl
  | cons op rest ih => rw [rowTFold_cons, ih, uri_rowT]

theorem doc_rowTFold (ops : List Op) (r : Node) : (rowTFold ops r).doc_id = r.doc_id := by
  induction ops generalizing r with
  | nil => rfl
  | cons op rest ih => rw [rowTFold_cons, ih, doc_rowT]

theorem num_rowTFold (ops : List Op) (r : Node) : (rowTFold ops r).num_val = r.num_val := by
  induction ops generalizing r with
  | nil => rfl
  | cons op rest ih => rw [rowTFold_cons, ih, num_rowT]

/-! Table-level facts about the writes. -/

theorem any_uri_iff (db : List Node) (u : String) :
    (db.any (fun r => r.uri == u) = true) ↔ ∃ r ∈ db, r.uri = u := by
  simp [List.any_eq_true]

theorem applyOp_append_eq (db : List Node) (u f : String) :
    applyOp db (Op.append u f) = db.map (fun r => rowStep r (Op.append u f)) := rfl

theorem applyOp_save_present (db : List Node) (d u l : String) (n : Nat) (c : String)
    (p : Option String) (h : ∃ r ∈ db, r.uri = u) :
    applyOp db (Op.save d u l n c p) = db.map (fun r => rowStep r (Op.save d u l n c p)) := by
  show save_node db d u l n c p = _
  unfold save_node
  rw [if_pos ((any_uri_iff db u).mpr h)]
  rfl

theorem applyOp_save_absent (db : List Node) (d u l : String) (n : Nat) (c : String)
    (p : Option String) (h : ¬ ∃ r ∈ db, r.uri = u) :
    applyOp db (Op.save d u l n c p) = db ++ [⟨d, u, l, n, c, p⟩] := by
  show save_node db d u l n c p = _
  unfold save_node
  rw [if_neg (fun hc => h ((any_uri_iff db u).mp hc))]

theorem urisOf_map_rowStep (db : List Node) (op : Op) :
    urisOf (db.map (fun r => rowStep r op)) = urisOf db := by
  unfold urisOf
  rw [List.map_map]
  have : ((fun r : Node => r.uri) ∘ fun r => rowStep r op) = fun r : Node => r.uri :=
    funext fun r => uri_rowStep r op
  rw [this]

theorem mem_urisOf_applyOp (db : List Node) (op : Op) (u : String) (h : u ∈ urisOf db) :
    u ∈ urisOf (applyOp db op) := by
  cases op with
  | append u' f => rw [applyOp_append_eq, urisOf_map_rowStep]; exact h
  | save d u' l n c p =>
    by_cases hp : ∃ r ∈ db, r.uri = u'
    · rw [applyOp_save_present db d u' l n c p hp, urisOf_map_rowStep]; exact h
    · rw [applyOp_save_absent db d u' l n c p hp]
      unfold urisOf at *
      rw [List.map_append]
      exact List.mem_append_left _ h

theorem save_uri_mem_applyOp (db : List Node) (d u l : String) (n : Nat) (c : String)
    (p : Option String) : u ∈ urisOf (applyOp db (Op.save d u l n c p)) := by
  by_cases hp : ∃ r ∈ db, r.uri = u
  · rw [applyOp_save_present db d u l n c p hp, urisOf_map_rowStep]
    obtain ⟨r, hr, hru⟩ := hp
    exact List.mem_map.mpr ⟨r, hr, hru⟩
  · rw [applyOp_save_absent db d u l n c p hp]
    unfold urisOf
    rw [List.map_append]
    exact List.mem_append_right _ (by simp)

theorem applyOps_nil (db : List Node) : applyOps db [] = db := rfl

theorem applyOps_cons (db : List Node) (op : Op) (rest : List Op) :
    applyOps db (op :: rest) = applyOps (applyOp db op) rest := rfl

theorem applyOps_append (db : List Node) (a b : List Op) :
    applyOps db (a ++ b) = applyOps (applyOps db a) b := by
  unfold applyOps; exact List.foldl_append _ _ _ _

theorem mem_urisOf_applyOps (ops : List Op) : ∀ db u, u ∈ urisOf db → u ∈ urisOf (applyOps db ops) := by
  induction ops with
  | nil => intro db u h; exact h
  | cons op rest ih =>
    intro db u h
    rw [applyOps_cons]
    exact ih _ _ (mem_urisOf_applyOp db op u h)

theorem saves_mem_final (ops : List Op) : ∀ db d u l n c p,
    Op.save d u l n c p ∈ ops → u ∈ urisOf (applyOps db ops) := by
  induction ops with
  | nil => intro db d u l n c p h; cases h
  | cons op rest ih =>
    intro db d u l n c p h
    rw [applyOps_cons]
    rcases List.mem_cons.mp h with h | h
    · subst h
      exact mem_urisOf_applyOps rest _ u (save_uri_mem_applyOp db d u l n c p)
    · exact ih _ d u l n c p h

theorem map_id_of_mem {α : Type} (l : List α) (f : α → α) (h : ∀ a ∈ l, f a = a) :
    l.map f = l := by
  induction l with
  | nil => rfl
  | cons a rest ih =>
    rw [List.map_cons, h a (List.mem_cons_self a rest),
      ih (fun b hb => h b (List.mem_cons_of_mem a hb))]

theorem map_congr_mem {α β : Type} (l : List α) (f g : α → β) (h : ∀ a ∈ l, f a = g a) :
    l.map f = l.map g := by
  induction l with
  | nil => rfl
  | cons a rest ih =>
    rw [List.map_cons, List.map_cons, h a (List.mem_cons_self a rest),
      ih (fun b hb => h b (List.mem_cons_of_mem a hb))]

theorem applyOps_eq_map (ops : List Op) : ∀ db,
    (∀ d u l n c p, Op.save d u l n c p ∈ ops → u ∈ urisOf db) →
    applyOps db ops = db.map (rowFold ops) := by
  induction ops with
  | nil =>
    intro db _
    rw [applyOps_nil]
    exact (map_id_of_mem db _ fun a _ => rowFold_nil a).symm
  | cons op rest ih =>
    intro db h
    rw [applyOps_cons]
    have hop : applyOp db op = db.map (fun r => rowStep r op) := by
      cases op with
      | append u f => exact applyOp_append_eq db u f
      | save d u l n c p =>
        refine applyOp_save_present db d u l n c p ?_
        have hu : u ∈ urisOf db := h d u l n c p (List.mem_cons_self _ _)
        obtain ⟨r, hr, hru⟩ := List.mem_map.mp hu
        exact ⟨r, hr, hru⟩
    rw [hop, ih _ ?_, List.map_map]
    · rfl
    · intro d u l n c p hmem
      rw [urisOf_map_rowStep]
      exact h d u l n c p (List.mem_cons_of_mem op hmem)

/-- Every row of the table after a write sequence either descends from an
initial row through the conditional per-row fold, or was born at some
save of the sequence and then folded through the remaining writes. -/
theorem applyOps_origin (ops : List Op) : ∀ db r, r ∈ applyOps db ops →
    (∃ x ∈ db, r = rowFold ops x) ∨
    (∃ pre d u l n c p post, ops = pre ++ Op.save d u l n c p :: post ∧
      r = rowFold post ⟨d, u, l, n, c, p⟩) := by
  induction ops with
  | nil =>
    intro db r hr
    exact Or.inl ⟨r, hr, (rowFold_nil r).symm⟩
  | cons op rest ih =>
    intro db r hr
    rw [applyOps_cons] at hr
    rcases ih (applyOp db op) r hr with ⟨x, hx, hfx⟩ | ⟨pre, d, u, l, n, c, p, post, heq, hb⟩
    · cases op with
      | append u f =>
        rw [applyOp_append_eq] at hx
        obtain ⟨x₀, hx₀, rfl⟩ := List.mem_map.mp hx
        exact Or.inl ⟨x₀, hx₀, by rw [hfx, rowFold_cons]⟩
      | save d u l n c p =>
        by_cases hp : ∃ r₀ ∈ db, r₀.uri = u
        · rw [applyOp_save_present db d u l n c p hp] at hx
          obtain ⟨x₀, hx₀, rfl⟩ := List.mem_map.mp hx
          exact Or.inl ⟨x₀, hx₀, by rw [hfx, rowFold_cons]⟩
        · rw [applyOp_save_absent db d u l n c p hp] at hx
          rcases List.mem_append.mp hx with hx | hx
          · refine Or.inl ⟨x, hx, ?_⟩
            have hne : ¬ x.uri = u := fun he => hp ⟨x, hx, he⟩
            rw [hfx, rowFold_cons]
            have : rowStep x (Op.save d u l n c p) = x := by
              unfold rowStep
              exact if_neg hne
            rw [this]
          · have hx' : x = ⟨d, u, l, n, c, p⟩ := List.mem_singleton.mp hx
            exact Or.inr ⟨[], d, u, l, n, c, p, rest, rfl, by rw [hfx, hx']⟩
    · exact Or.inr ⟨op :: pre, d, u, l, n, c, p, post, by rw [heq]; rfl, hb⟩

/-- The conditional per-row fold only sees the writes addressed to the
row's own uri. -/
theorem rowFold_eq_filter (ops : List Op) : ∀ r,
    rowFold ops r = rowTFold (ops.filter (fun op => opUri op == r.uri)) r := by
  induction ops with
  | nil => intro r; rfl
  | cons op rest ih =>
    intro r
    rw [rowFold_cons]
    by_cases h : r.uri = opUri op
    · rw [List.filter_cons_of_pos (by simp [h]), rowTFold_cons]
      have hstep : rowStep r op = rowT op r := by unfold rowStep; exact if_pos h
      rw [hstep, ih (rowT op r)]
      simp only [uri_rowT]
    · rw [List.filter_cons_of_neg (by simp only [beq_iff_eq]; exact fun he => h he.symm),
        ih (rowStep r op)]
      have hstep : rowStep r op = r := by unfold rowStep; exact if_neg h
      rw [hstep]

/-- Well-formedness forces every per-uri write trace to begin with a save. -/
theorem wfFrom_headSave (ops : List Op) : ∀ S, wfFrom S ops → ∀ u, u ∉ S →
    headSave (ops.filter (fun op => opUri op == u)) := by
  induction ops with
  | nil => intro S _ u _; trivial
  | cons op rest ih =>
    intro S hwf u hu
    cases op with
    | save d u' l n c p =>
      by_cases h : u' = u
      · rw [List.filter_cons_of_pos (by simp [opUri, h])]
        trivial
      · rw [List.filter_cons_of_neg (by simp [opUri, h])]
        refine ih (u' :: S) hwf u ?_
        intro hmem
        rcases List.mem_cons.mp hmem with hmem | hmem
        · exact h hmem.symm
        · exact hu hmem
    | append u' f =>
      obtain ⟨hmem, hrest⟩ := hwf
      have h : ¬ u' = u := fun he => hu (he ▸ hmem)
      rw [List.filter_cons_of_neg (by simp [opUri, h])]
      exact ih S hrest u hu

/-- Replaying a well-formed write sequence on the table it has already
produced changes nothing: each per-uri trace starts with a save that
resets the mutable fields, after which the same appends re-accumulate
the same content. -/
theorem applyOps_idem (db : List Node) (ops : List Op)
    (hwf : ∀ u, headSave (ops.filter (fun op => opUri op == u))) :
    applyOps (applyOps db ops) ops = applyOps db ops := by
  rw [applyOps_eq_map ops (applyOps db ops) (fun d u l n c p h => saves_mem_final ops db d u l n c p h)]
  refine map_id_of_mem _ _ ?_
  intro r hr
  rcases applyOps_origin ops db r hr with ⟨x, _, rfl⟩ | ⟨pre, d, u, l, n, c, p, post, rfl, rfl⟩
  · have hu : (rowFold ops x).uri = x.uri := uri_rowFold ops x
    rw [rowFold_eq_filter ops (rowFold ops x)]
    simp only [hu]
    cases hfil : ops.filter (fun op => opUri op == x.uri) with
    | nil =>
      rw [rowFold_eq_filter ops x, hfil]
      rfl
    | cons op0 rest0 =>
      have hs : headSave (op0 :: rest0) := hfil ▸ hwf x.uri
      cases op0 with
      | append u0 f0 => exact False.elim hs
      | save d0 u0 l0 n0 c0 p0 =>
        rw [rowFold_eq_filter ops x, hfil, rowTFold_cons, rowTFold_cons]
        have hy : rowT (Op.save d0 u0 l0 n0 c0 p0) (rowTFold (Op.save d0 u0 l0 n0 c0 p0 :: rest0) x)
            = rowT (Op.save d0 u0 l0 n0 c0 p0) x := by
          rw [rowT_save_eq, rowT_save_eq]
          rw [rowTFold_cons, doc_rowTFold, num_rowTFold, uri_rowTFold, doc_rowT, num_rowT, uri_rowT]
        rw [rowTFold_cons] at hy
        rw [hy]
  · have huri : (rowFold post (⟨d, u, l, n, c, p⟩ : Node)).uri = u := uri_rowFold post _
    rw [rowFold_eq_filter (pre ++ Op.save d u l n c p :: post) (rowFold post ⟨d, u, l, n, c, p⟩)]
    simp only [huri]
    rw [List.filter_append, List.filter_cons_of_pos (by simp [opUri]), rowTFold_append, rowTFold_cons]
    have hW : rowT (Op.save d u l n c p)
        (rowTFold (pre.filter fun op => opUri op == u) (rowFold post ⟨d, u, l, n, c, p⟩))
        = (⟨d, u, l, n, c, p⟩ : Node) := by
      rw [rowT_save_eq, doc_rowTFold, num_rowTFold, uri_rowTFold, doc_rowFold, num_rowFold, uri_rowFold]
    rw [hW]
    exact (rowFold_eq_filter post ⟨d, u, l, n, c, p⟩).symm

/-! Factoring the pass into a control trace plus a write sequence. -/

theorem savesAcc_append (a : List Op) : ∀ S b, savesAcc S (a ++ b) = savesAcc (savesAcc S a) b := by
  induction a with
  | nil => intro S b; rfl
  | cons op rest ih =>
    intro S b
    cases op with
    | save d u l n c p => exact ih (u :: S) b
    | append u f => exact ih S b

theorem wfFrom_append (a : List Op) : ∀ S b, wfFrom S a → wfFrom (savesAcc S a) b →
    wfFrom S (a ++ b) := by
  induction a with
  | nil => intro S b _ hb; exact hb
  | cons op rest ih =>
    intro S b ha hb
    cases op with
    | save d u l n c p => exact ih (u :: S) b ha hb
    | append u f =>
      obtain ⟨hm, hr⟩ := ha
      exact ⟨hm, ih S b hr hb⟩

/-- Section B as a control transition plus a write sequence, independent
of the current table contents. -/
theorem articleStep_ops (doc_id : String) (ctrl : Ctrl) (text : String) :
    ∃ ctrl2 ops,
      (∀ ns, articleStep doc_id ⟨ctrl, ns⟩ text = ⟨ctrl2, applyOps ns ops⟩) ∧
      (∀ S, activeOK S ctrl → wfFrom S ops ∧ activeOK (savesAcc S ops) ctrl2) := by
  cases hg : articleGroup text.data with
  | some grp =>
    refine ⟨⟨some (match ctrl.current_c_uri with
          | some c => c
          | none => "/" ++ pyLower doc_id ++ "/c1"),
        some ((match ctrl.current_c_uri with
          | some c => c
          | none => "/" ++ pyLower doc_id ++ "/c1") ++ "/a" ++ toString (article_val grp)),
        true⟩,
      [Op.save doc_id
        ((match ctrl.current_c_uri with
          | some c => c
          | none => "/" ++ pyLower doc_id ++ "/c1") ++ "/a" ++ toString (article_val grp))
        "section" (article_val grp) text
        (some (match ctrl.current_c_uri with
          | some c => c
          | none => "/" ++ pyLower doc_id ++ "/c1"))], ?_, ?_⟩
    · intro ns
      simp only [articleStep, hg]
      rfl
    · intro S _
      refine ⟨trivial, ?_⟩
      intro u hu
      rw [Option.some_inj.mp hu.symm]
      exact List.mem_cons_self _ _
  | none =>
    cases hb : ctrl.has_entered_body with
    | false =>
      refine ⟨ctrl, [], ?_, fun S h => ⟨trivial, h⟩⟩
      intro ns
      simp only [articleStep, hg, contentStep, hb]
      rfl
    | true =>
      cases hu : ctrl.active_uri with
      | none =>
        refine ⟨ctrl, [], ?_, fun S h => ⟨trivial, h⟩⟩
        intro ns
        simp only [articleStep, hg, contentStep, hb, hu]
        rfl
      | some u =>
        cases hn : noiseMatch text.data with
        | true =>
          refine ⟨ctrl, [], ?_, fun S h => ⟨trivial, h⟩⟩
          intro ns
          simp only [articleStep, hg, contentStep, hb, hu, hn]
          rfl
        | false =>
          refine ⟨ctrl, [Op.append u ("\n" ++ pyClean text)], ?_, ?_⟩
          · intro ns
            simp only [articleStep, hg, contentStep, hb, hu, hn]
            rfl
          · intro S h
            exact ⟨⟨h u hu, trivial⟩, h⟩

/-- One loop iteration as a control transition plus a write sequence,
independent of the current table contents. -/
theorem stepBlock_ops (doc_id : String) (ctrl : Ctrl) (raw : String) :
    ∃ ctrl2 ops,
      (∀ ns, stepBlock doc_id ⟨ctrl, ns⟩ raw = ⟨ctrl2, applyOps ns ops⟩) ∧
      (∀ S, activeOK S ctrl → wfFrom S ops ∧ activeOK (savesAcc S ops) ctrl2) := by
  by_cases hraw : raw = ""
  · refine ⟨ctrl, [], ?_, fun S h => ⟨trivial, h⟩⟩
    intro ns
    simp only [stepBlock, if_pos hraw]
    rfl
  · cases hch : chapterGroup (pyStrip raw).data with
    | none =>
      obtain ⟨ctrl2, ops, heq, hwf⟩ := articleStep_ops doc_id ctrl (pyStrip raw)
      refine ⟨ctrl2, ops, ?_, hwf⟩
      intro ns
      simp only [stepBlock, if_neg hraw, hch]
      exact heq ns
    | some grp =>
      cases htoc : (!ctrl.has_entered_body &&
          (containsSub "目录".data (pyStrip raw).data || containsSub "...".data (pyStrip raw).data)) with
      | true =>
        refine ⟨ctrl, [], ?_, fun S h => ⟨trivial, h⟩⟩
        intro ns
        simp only [stepBlock, if_neg hraw, hch, htoc]
        rfl
      | false =>
        cases hsp : findSectionSplit (pyStrip raw).data with
        | none =>
          refine ⟨⟨some (mkChapterUri doc_id (cn_to_int (some (String.mk grp)))),
              some (mkChapterUri doc_id (cn_to_int (some (String.mk grp)))), ctrl.has_entered_body⟩,
            [Op.save doc_id (mkChapterUri doc_id (cn_to_int (some (String.mk grp)))) "chapter"
              (cn_to_int (some (String.mk grp))) (pyStrip raw) none], ?_, ?_⟩
          · intro ns
            simp only [stepBlock, if_neg hraw, hch, htoc, hsp]
            rfl
          · intro S _
            refine ⟨trivial, ?_⟩
            intro u hu
            rw [Option.some_inj.mp hu.symm]
            exact List.mem_cons_self _ _
        | some i =>
          obtain ⟨ctrl2, ops2, heq2, hwf2⟩ := articleStep_ops doc_id
            ⟨some (mkChapterUri doc_id (cn_to_int (some (String.mk grp)))),
             some (mkChapterUri doc_id (cn_to_int (some (String.mk grp)))), ctrl.has_entered_body⟩
            (String.mk (pyStripL ((pyStrip raw).data.drop i)))
          refine ⟨ctrl2,
            Op.save doc_id (mkChapterUri doc_id (cn_to_int (some (String.mk grp)))) "chapter"
              (cn_to_int (some (String.mk grp)))
              (String.mk (pyStripL ((pyStrip raw).data.take i))) none :: ops2, ?_, ?_⟩
          · intro ns
            simp only [stepBlock, if_neg hraw, hch, htoc, hsp]
            rw [applyOps_cons]
            exact heq2 _
          · intro S hOK
            have hOK1 : activeOK (mkChapterUri doc_id (cn_to_int (some (String.mk grp))) :: S)
                ⟨some (mkChapterUri doc_id (cn_to_int (some (String.mk grp)))),
                 some (mkChapterUri doc_id (cn_to_int (some (String.mk grp)))), ctrl.has_entered_body⟩ := by
              intro u hu
              rw [Option.some_inj.mp hu.symm]
              exact List.mem_cons_self _ _
            obtain ⟨hw2, ha2⟩ := hwf2 _ hOK1
            exact ⟨hw2, ha2⟩

/-- The whole scan as a control transition plus a write sequence. -/
theorem foldBlocks_ops (doc_id : String) (blocks : List String) : ∀ ctrl,
    ∃ ctrl2 ops,
      (∀ ns, List.foldl (stepBlock doc_id) ⟨ctrl, ns⟩ blocks = ⟨ctrl2, applyOps ns ops⟩) ∧
      (∀ S, activeOK S ctrl → wfFrom S ops ∧ activeOK (savesAcc S ops) ctrl2) := by
  induction blocks with
  | nil => exact fun ctrl => ⟨ctrl, [], fun ns => rfl, fun S h => ⟨trivial, h⟩⟩
  | cons b rest ih =>
    intro ctrl
    obtain ⟨ctrl1, ops1, heq1, hwf1⟩ := stepBlock_ops doc_id ctrl b
    obtain ⟨ctrl2, ops2, heq2, hwf2⟩ := ih ctrl1
    refine ⟨ctrl2, ops1 ++ ops2, ?_, ?_⟩
    · intro ns
      rw [List.foldl_cons, heq1 ns, heq2 (applyOps ns ops1), applyOps_append]
    · intro S hOK
      obtain ⟨hw1, ha1⟩ := hwf1 S hOK
      obtain ⟨hw2, ha2⟩ := hwf2 (savesAcc S ops1) ha1
      refine ⟨wfFrom_append ops1 S ops2 hw1 hw2, ?_⟩
      rw [savesAcc_append]
      exact ha2

/-- The metadata upsert is idempotent for one fixed argument tuple. -/
theorem upsert_metadata_idem (tbl : List MetaRow) (d t c dt : String) :
    upsert_metadata (upsert_metadata tbl d t c dt) d t c dt = upsert_metadata tbl d t c dt := by
  by_cases h : tbl.any (fun m => m.doc_id == d) = true
  · have h1 : upsert_metadata tbl d t c dt
        = tbl.map (fun m => if m.doc_id = d then { m with title := t } else m) := by
      unfold upsert_metadata
      rw [if_pos h]
    obtain ⟨m0, hm0, hd0⟩ := List.any_eq_true.mp h
    have h2 : (tbl.map (fun m => if m.doc_id = d then { m with title := t } else m)).any
        (fun m => m.doc_id == d) = true := by
      refine List.any_eq_true.mpr ⟨if m0.doc_id = d then { m0 with title := t } else m0,
        List.mem_map.mpr ⟨m0, hm0, rfl⟩, ?_⟩
      rw [if_pos (beq_iff_eq.mp hd0)]
      exact hd0
    rw [h1]
    unfold upsert_metadata
    rw [if_pos h2, List.map_map]
    refine map_congr_mem tbl _ _ fun m _ => ?_
    by_cases hm : m.doc_id = d
    · simp [Function.comp, hm]
    · simp [Function.comp, hm]
  · have h1 : upsert_metadata tbl d t c dt = tbl ++ [⟨d, t, c, dt⟩] := by
      unfold upsert_metadata
      rw [if_neg h]
    have h2 : ((tbl ++ [(⟨d, t, c, dt⟩ : MetaRow)]).any (fun m => m.doc_id == d)) = true :=
      List.any_eq_true.mpr ⟨⟨d, t, c, dt⟩, List.mem_append_right _ (by simp), by simp⟩
    rw [h1]
    unfold upsert_metadata
    rw [if_pos h2, List.map_append]
    have h3 : tbl.map (fun m => if m.doc_id = d then { m with title := t } else m) = tbl := by
      refine map_id_of_mem tbl _ fun m hm => ?_
      have : ¬ m.doc_id = d := by
        intro he
        exact h (List.any_eq_true.mpr ⟨m, hm, beq_iff_eq.mpr he⟩)
      rw [if_neg this]
    rw [h3]
    have h4 : ([(⟨d, t, c, dt⟩ : MetaRow)].map
        (fun m => if m.doc_id = d then { m with title := t } else m)) = [⟨d, t, c, dt⟩] := by
      simp
    rw [h4]

/-- C3: running `parse_and_store` twice on an identical block stream
produces an identical final store — the same node rows with the same
uri, content, parent_uri and label, with no duplication and no content
drift: the second run replays the identical write sequence, whose
per-uri traces each begin with a save that resets the row before the
same appends re-accumulate the same content. -/
theorem c3_idempotence (store : Store) (doc_id : String) (md : Metadata) (blocks : List String) :
    parse_and_store (parse_and_store store doc_id md blocks) doc_id md blocks
      = parse_and_store store doc_id md blocks := by
  obtain ⟨ctrl2, ops, heq, hwf⟩ := foldBlocks_ops doc_id blocks initCtrl
  have hwf0 : wfFrom [] ops := (hwf [] (fun u hu => Option.noConfusion hu)).1
  have hhead : ∀ u, headSave (ops.filter (fun op => opUri op == u)) :=
    fun u => wfFrom_headSave ops [] hwf0 u (List.not_mem_nil u)
  have h1 : (parse_and_store (parse_and_store store doc_id md blocks) doc_id md blocks).legal_metadata
      = (parse_and_store store doc_id md blocks).legal_metadata :=
    upsert_metadata_idem store.legal_metadata doc_id md.title md.creator md.date
  have h2 : (parse_and_store (parse_and_store store doc_id md blocks) doc_id md blocks).legal_nodes
      = (parse_and_store store doc_id md blocks).legal_nodes := by
    show (blocks.foldl (stepBlock doc_id)
        ⟨initCtrl, (blocks.foldl (stepBlock doc_id) ⟨initCtrl, store.legal_nodes⟩).nodes⟩).nodes
      = (blocks.foldl (stepBlock doc_id) ⟨initCtrl, store.legal_nodes⟩).nodes
    calc (blocks.foldl (stepBlock doc_id)
            ⟨initCtrl, (blocks.foldl (stepBlock doc_id) ⟨initCtrl, store.legal_nodes⟩).nodes⟩).nodes
        = (blocks.foldl (stepBlock doc_id) ⟨initCtrl, applyOps store.legal_nodes ops⟩).nodes := by
          rw [heq store.legal_nodes]
      _ = applyOps (applyOps store.legal_nodes ops) ops := by
          rw [heq (applyOps store.legal_nodes ops)]
      _ = applyOps store.legal_nodes ops := applyOps_idem store.legal_nodes ops hhead
      _ = (blocks.foldl (stepBlock doc_id) ⟨initCtrl, store.legal_nodes⟩).nodes := by
          rw [heq store.legal_nodes]
  have heta : parse_and_store (parse_and_store store doc_id md blocks) doc_id md blocks
      = ⟨(parse_and_store (parse_and_store store doc_id md blocks) doc_id md blocks).legal_metadata,
         (parse_and_store (parse_and_store store doc_id md blocks) doc_id md blocks).legal_nodes⟩ := rfl
  rw [heta, h1, h2]

/-! Facts about the header regexes and stripping, used for the
merged-boundary repair claim. -/

theorem takeWhile_sound {p : Char → Bool} : ∀ l : List Char, ∀ c ∈ l.takeWhile p, p c = true := by
  intro l
  induction l with
  | nil => intro c hc; cases hc
  | cons a rest ih =>
    intro c hc
    rw [List.takeWhile_cons] at hc
    by_cases ha : p a = true
    · rw [if_pos ha] at hc
      rcases List.mem_cons.mp hc with hc | hc
      · rw [hc]; exact ha
      · exact ih c hc
    · rw [if_neg ha] at hc
      cases hc

theorem takeWhile_append_run {p : Char → Bool} (run : List Char) (b : Char) (tail : List Char)
    (hrun : ∀ c ∈ run, p c = true) (hb : p b = false) :
    (run ++ b :: tail).takeWhile p = run := by
  induction run with
  | nil =>
    rw [List.nil_append, List.takeWhile_cons, if_neg (by rw [hb]; exact Bool.false_ne_true)]
  | cons a rest ih =>
    rw [List.cons_append, List.takeWhile_cons,
      if_pos (hrun a (List.mem_cons_self a rest)),
      ih (fun c hc => hrun c (List.mem_cons_of_mem a hc))]

theorem dropWhile_append_run {p : Char → Bool} (run : List Char) (b : Char) (tail : List Char)
    (hrun : ∀ c ∈ run, p c = true) (hb : p b = false) :
    (run ++ b :: tail).dropWhile p = b :: tail := by
  induction run with
  | nil =>
    rw [List.nil_append, List.dropWhile_cons, if_neg (by rw [hb]; exact Bool.false_ne_true)]
  | cons a rest ih =>
    rw [List.cons_append, List.dropWhile_cons,
      if_pos (hrun a (List.mem_cons_self a rest)),
      ih (fun c hc => hrun c (List.mem_cons_of_mem a hc))]

theorem dropWhile_cons_mid {p : Char → Bool} (b : Char) (ys : List Char) (hb : p b = false) :
    ∀ xs : List Char, (xs ++ b :: ys).dropWhile p = xs.dropWhile p ++ b :: ys := by
  intro xs
  induction xs with
  | nil =>
    rw [List.nil_append, List.dropWhile_cons, List.dropWhile_nil, List.nil_append,
      if_neg (by rw [hb]; exact Bool.false_ne_true)]
  | cons a rest ih =>
    rw [List.cons_append, List.dropWhile_cons, List.dropWhile_cons]
    by_cases ha : p a = true
    · rw [if_pos ha, if_pos ha, ih]
    · rw [if_neg ha, if_neg ha, List.cons_append]

theorem matchHeader_inv {cls : Char → Bool} {close : Char} {cs run : List Char}
    (h : matchHeader cls close cs = some run) :
    ∃ tail, cs = '第' :: run ++ close :: tail ∧ run ≠ [] ∧ (∀ c ∈ run, cls c = true) := by
  cases cs with
  | nil => cases h
  | cons c rest =>
    have h1 : (if c = '第' then
        if (rest.takeWhile cls).isEmpty = true then none
        else
          match rest.dropWhile cls with
          | c2 :: _ => if c2 = close then some (rest.takeWhile cls) else none
          | [] => none
      else none) = some run := h
    by_cases hc : c = '第'
    · rw [if_pos hc] at h1
      by_cases hrun : (rest.takeWhile cls).isEmpty = true
      · rw [if_pos hrun] at h1
        cases h1
      · rw [if_neg hrun] at h1
        cases hd : rest.dropWhile cls with
        | nil =>
          have h2 : (none : Option (List Char)) = some run := by rw [hd] at h1; exact h1
          cases h2
        | cons c2 tail =>
          have h2 : (if c2 = close then some (rest.takeWhile cls) else none) = some run := by
            rw [hd] at h1; exact h1
          by_cases hc2 : c2 = close
          · rw [if_pos hc2] at h2
            have hr : rest.takeWhile cls = run := Option.some_inj.mp h2
            refine ⟨tail, ?_, ?_, ?_⟩
            · rw [hc, ← hr, ← hc2, ← hd, List.cons_append]
              rw [List.takeWhile_append_dropWhile]
            · intro he
              rw [he] at hr
              rw [hr] at hrun
              exact hrun rfl
            · intro ch hch
              rw [← hr] at hch
              exact takeWhile_sound rest ch hch
          · rw [if_neg hc2] at h2
            cases h2
    · rw [if_neg hc] at h1
      cases h1

theorem matchHeader_build {cls : Char → Bool} {close : Char} (run tail : List Char)
    (hrun : ∀ c ∈ run, cls c = true) (hne : run ≠ []) (hcl : cls close = false) :
    matchHeader cls close ('第' :: run ++ close :: tail) = some run := by
  have h2 : (run ++ close :: tail).dropWhile cls = close :: tail :=
    dropWhile_append_run run close tail hrun hcl
  have hne2 : ¬ ((run ++ close :: tail).takeWhile cls).isEmpty = true := by
    rw [takeWhile_append_run run close tail hrun hcl]
    cases run with
    | nil => exact absurd rfl hne
    | cons a l => exact Bool.false_ne_true
  show (if ('第' : Char) = '第' then
      if ((run ++ close :: tail).takeWhile cls).isEmpty = true then none
      else
        match (run ++ close :: tail).dropWhile cls with
        | c2 :: _ => if c2 = close then some ((run ++ close :: tail).takeWhile cls) else none
        | [] => none
    else none) = some run
  rw [if_pos rfl, if_neg hne2, h2]
  show (if close = close then some ((run ++ close :: tail).takeWhile cls) else none) = some run
  rw [if_pos rfl, takeWhile_append_run run close tail hrun hcl]

theorem rstripPy_append_mid (xs : List Char) (b : Char) (ys : List Char)
    (hb : isPySpace b = false) :
    rstripPy (xs ++ b :: ys) = xs ++ b :: rstripPy ys := by
  unfold rstripPy
  rw [List.reverse_append, List.reverse_cons, List.append_assoc, List.singleton_append,
    dropWhile_cons_mid b xs.reverse hb ys.reverse,
    List.reverse_append, List.reverse_cons, List.append_assoc, List.singleton_append,
    List.reverse_reverse]

theorem articleGroup_rstrip {cs run : List Char} (h : articleGroup cs = some run) :
    articleGroup (rstripPy cs) = some run := by
  obtain ⟨tail, hcs, hne, hrun⟩ := matchHeader_inv h
  rw [hcs]
  have h1 : rstripPy (('第' :: run) ++ '条' :: tail) = ('第' :: run) ++ '条' :: rstripPy tail :=
    rstripPy_append_mid ('第' :: run) '条' tail (by decide)
  rw [show ('第' :: run ++ '条' :: tail) = (('第' :: run) ++ '条' :: tail) from rfl, h1]
  exact matchHeader_build run (rstripPy tail) hrun hne (by decide)

theorem findSectionSplit_sound : ∀ (cs : List Char) (i : Nat), findSectionSplit cs = some i →
    (matchHeader isArtNumChar '条' ((cs.drop i).dropWhile isPySpace)).isSome = true := by
  intro cs
  induction cs with
  | nil => intro i h; cases h
  | cons c rest ih =>
    intro i h
    unfold findSectionSplit at h
    by_cases hcond : (isPySpace c &&
        (matchHeader isArtNumChar '条' ((c :: rest).dropWhile isPySpace)).isSome) = true
    · rw [if_pos hcond] at h
      have hi : i = 0 := (Option.some_inj.mp h).symm
      rw [hi, List.drop_zero]
      exact ((Bool.and_eq_true _ _).mp hcond).2
    · rw [if_neg hcond] at h
      obtain ⟨j, hj, hij⟩ := Option.map_eq_some'.mp h
      rw [← hij]
      exact ih j hj

/-- The suffix produced by the merged-boundary split always passes the
article-boundary test: the split point starts a whitespace run followed
by an embedded article header, stripping removes exactly that run on the
left and cannot reach into the header on the right. -/
theorem split_suffix_article {cs : List Char} {i : Nat} (h : findSectionSplit cs = some i) :
    ∃ run, articleGroup (pyStripL (cs.drop i)) = some run := by
  have hs := findSectionSplit_sound cs i h
  obtain ⟨run, hr⟩ := Option.isSome_iff_exists.mp hs
  exact ⟨run, articleGroup_rstrip hr⟩

/-! Presence and preservation of saved rows. -/

theorem save_node_mem (db : List Node) (d u l : String) (n : Nat) (c : String)
    (p : Option String) :
    ∃ r ∈ save_node db d u l n c p, r.uri = u ∧ r.label = l := by
  unfold save_node
  by_cases h : db.any (fun r => r.uri == u) = true
  · rw [if_pos h]
    obtain ⟨r, hr, hru⟩ := List.any_eq_true.mp h
    have hru' : r.uri = u := beq_iff_eq.mp hru
    refine ⟨if r.uri = u then { r with label := l, content := c, parent_uri := p } else r,
      List.mem_map.mpr ⟨r, hr, rfl⟩, ?_⟩
    rw [if_pos hru']
    exact ⟨hru', rfl⟩
  · rw [if_neg h]
    exact ⟨⟨d, u, l, n, c, p⟩, List.mem_append_right _ (by simp), rfl, rfl⟩

theorem save_node_preserves (db : List Node) (d u' l' : String) (n' : Nat) (c' : String)
    (p' : Option String) (u l : String) (hne : u ≠ u')
    (h : ∃ r ∈ db, r.uri = u ∧ r.label = l) :
    ∃ r ∈ save_node db d u' l' n' c' p', r.uri = u ∧ r.label = l := by
  obtain ⟨r, hr, hru, hrl⟩ := h
  unfold save_node
  by_cases hp : db.any (fun x => x.uri == u') = true
  · rw [if_pos hp]
    refine ⟨if r.uri = u' then { r with label := l', content := c', parent_uri := p' } else r,
      List.mem_map.mpr ⟨r, hr, rfl⟩, ?_⟩
    rw [if_neg (by rw [hru]; exact hne)]
    exact ⟨hru, hrl⟩
  · rw [if_neg hp]
    exact ⟨r, List.mem_append_left _ hr, hru, hrl⟩

theorem append_content_preserves (db : List Node) (f u' : String) (u l : String)
    (h : ∃ r ∈ db, r.uri = u ∧ r.label = l) :
    ∃ r ∈ append_content db f u', r.uri = u ∧ r.label = l := by
  obtain ⟨r, hr, hru, hrl⟩ := h
  unfold append_content
  refine ⟨if r.uri = u' then { r with content := r.content ++ f } else r,
    List.mem_map.mpr ⟨r, hr, rfl⟩, ?_⟩
  by_cases hc : r.uri = u'
  · rw [if_pos hc]
    exact ⟨hru, hrl⟩
  · rw [if_neg hc]
    exact ⟨hru, hrl⟩

theorem ne_append_articleSuffix (c t : String) : c ≠ c ++ "/a" ++ t := by
  intro h
  have hlen := congrArg String.length h
  rw [String.length_append, String.length_append] at hlen
  have h2 : String.length "/a" = 2 := rfl
  omega

/-- Section B never disturbs an existing chapter row at the current
chapter uri, and keeps the current chapter uri. -/
theorem articleStep_preserves_chapter (doc_id : String) (st : PassState) (text : String)
    (c : String) (hc : st.ctrl.current_c_uri = some c)
    (h : ∃ r ∈ st.nodes, r.uri = c ∧ r.label = "chapter") :
    (articleStep doc_id st text).ctrl.current_c_uri = some c ∧
    ∃ r ∈ (articleStep doc_id st text).nodes, r.uri = c ∧ r.label = "chapter" := by
  cases hg : articleGroup text.data with
  | some grp =>
    have hred : (match st.ctrl.current_c_uri with
        | some cc => cc
        | none => "/" ++ pyLower doc_id ++ "/c1") = c := by rw [hc]
    constructor
    · simp only [articleStep, hg, hred]
    · simp only [articleStep, hg, hred]
      exact save_node_preserves st.nodes doc_id (c ++ "/a" ++ toString (article_val grp))
        "section" (article_val grp) text (some c) c "chapter"
        (ne_append_articleSuffix c (toString (article_val grp))) h
  | none =>
    cases hb : st.ctrl.has_entered_body with
    | false =>
      constructor
      · simp only [articleStep, hg, contentStep, hb]
        exact hc
      · simp only [articleStep, hg, contentStep, hb]
        exact h
    | true =>
      cases hu : st.ctrl.active_uri with
      | none =>
        constructor
        · simp only [articleStep, hg, contentStep, hb, hu]
          exact hc
        · simp only [articleStep, hg, contentStep, hb, hu]
          exact h
      | some u =>
        cases hn : noiseMatch text.data with
        | true =>
          constructor
          · simp only [articleStep, hg, contentStep, hb, hu, hn]
            exact hc
          · simp only [articleStep, hg, contentStep, hb, hu, hn]
            exact h
        | false =>
          constructor
          · simp only [articleStep, hg, contentStep, hb, hu, hn]
            exact hc
          · simp only [articleStep, hg, contentStep, hb, hu, hn]
            exact append_content_preserves st.nodes ("\n" ++ pyClean text) u c "chapter" h

theorem chapterGroup_raw_ne {raw : String} {grp : List Char}
    (h : chapterGroup (pyStrip raw).data = some grp) : ¬ raw = "" := by
  intro hr
  rw [hr] at h
  have h0 : chapterGroup (pyStrip "").data = none := rfl
  rw [h0] at h
  cases h

theorem articleGroup_raw_ne {raw : String} {grp : List Char}
    (h : articleGroup (pyStrip raw).data = some grp) : ¬ raw = "" := by
  intro hr
  rw [hr] at h
  have h0 : articleGroup (pyStrip "").data = none := rfl
  rw [h0] at h
  cases h

theorem cnLoop_cons (c : Char) (l : List Char) (res temp : Nat) :
    cnLoop (c :: l) res temp =
      if c = '百' then cnLoop l (res + (if temp ≠ 0 then temp else 1) * 100) 0
      else if c = '十' then cnLoop l (res + (if temp ≠ 0 then temp else 1) * 10) 0
      else cnLoop l res (cnNumGet c) := rfl

theorem cnNumGet_unknown {c : Char} (hk : cnKnown c = false) : cnNumGet c = 0 := by
  unfold cnNumGet
  split_ifs with h1 h2 h3 h4 h5 h6 h7 h8 h9 h10 h11
  · rfl
  · rw [h2] at hk; exact absurd hk (by decide)
  · rw [h3] at hk; exact absurd hk (by decide)
  · rw [h4] at hk; exact absurd hk (by decide)
  · rw [h5] at hk; exact absurd hk (by decide)
  · rw [h6] at hk; exact absurd hk (by decide)
  · rw [h7] at hk; exact absurd hk (by decide)
  · rw [h8] at hk; exact absurd hk (by decide)
  · rw [h9] at hk; exact absurd hk (by decide)
  · rw [h10] at hk; exact absurd hk (by decide)
  · rw [h11] at hk; exact absurd hk (by decide)
  · rfl

/-- Replacing every unknown character by the digit `零` does not change
the scan: an unknown character already acts by resetting the pending
digit to zero, exactly as `零` does. -/
theorem cnLoop_znorm : ∀ (l : List Char) (res temp : Nat),
    cnLoop (l.map (fun c => if cnKnown c then c else '零')) res temp = cnLoop l res temp := by
  intro l
  induction l with
  | nil => intro res temp; rfl
  | cons c rest ih =>
    intro res temp
    rw [List.map_cons]
    by_cases hk : cnKnown c = true
    · rw [if_pos hk, cnLoop_cons, cnLoop_cons]
      split_ifs <;> exact ih _ _
    · rw [if_neg hk, cnLoop_cons, cnLoop_cons]
      have hb : ¬ c = '百' := by
        intro he; rw [he] at hk; exact hk (by decide)
      have ht : ¬ c = '十' := by
        intro he; rw [he] at hk; exact hk (by decide)
      rw [if_neg (by decide : ¬ ('零' : Char) = '百'), if_neg (by decide : ¬ ('零' : Char) = '十'),
        if_neg hb, if_neg ht, cnNumGet_unknown (Bool.eq_false_iff.mpr hk),
        show cnNumGet '零' = 0 from rfl]
      exact ih res 0

/-! The claim theorems. -/

/-- C5: the Numeral Normalizer reference values hold
(`cn_to_int("十")=10`, `cn_to_int("二十三")=23`, `cn_to_int("一百")=100`,
`cn_to_int("一百二十三")=123`, empty and `None` give 0), and in general the
single left-to-right scan returns the denoted integer for every
canonically written Chinese numeral up to 999. -/
theorem c5_numeral_normalizer :
    cn_to_int (some "十") = 10 ∧ cn_to_int (some "二十三") = 23 ∧
    cn_to_int (some "一百") = 100 ∧ cn_to_int (some "一百二十三") = 123 ∧
    cn_to_int (some "") = 0 ∧ cn_to_int none = 0 ∧
    ∀ n, n < 1000 → cn_to_int (some (cnCanon n)) = n := by
  refine ⟨by decide, by decide, by decide, by decide, by decide, rfl, ?_⟩
  decide

/-- C5 witness: the general scan statement evaluated at 457. -/
theorem c5_witness : cn_to_int (some (cnCanon 457)) = 457 :=
  c5_numeral_normalizer.2.2.2.2.2.2 457 (by decide)

/-- C8 counterexample: an unknown character does not behave like a
removed character — it resets the pending digit, so `cn_to_int("二A十")`
is 10 while `cn_to_int("二十")` (the same string with the unknown
character removed) is 20. -/
theorem c8_counterexample :
    cn_to_int (some "二A十") = 10 ∧ cn_to_int (some "二十") = 20 ∧ ¬ ((10 : Nat) = 20) :=
  ⟨by decide, by decide, by decide⟩

/-- C8 (amended): `cn_to_int` is total over arbitrary characters, and an
unknown character contributes the digit value 0 — it is treated exactly
like the digit `零` (resetting the pending digit), not like a removed
character. -/
theorem c8_unknown_chars (s : String) :
    cn_to_int (some (String.mk (s.data.map (fun c => if cnKnown c then c else '零'))))
      = cn_to_int (some s) := by
  by_cases hs : s = ""
  · rw [hs]
    decide
  · have hs2 : ¬ (String.mk (s.data.map (fun c => if cnKnown c then c else '零')) = "") := by
      intro he
      apply hs
      have hd := congrArg String.data he
      have hnil : s.data.map (fun c => if cnKnown c then c else '零') = [] := hd
      have hsd : s.data = [] := List.map_eq_nil_iff.mp hnil
      cases s with
      | mk l =>
        have : l = [] := hsd
        rw [this]
    show (if String.mk (s.data.map (fun c => if cnKnown c then c else '零')) = "" then 0
        else cnLoop (String.mk (s.data.map (fun c => if cnKnown c then c else '零'))).data 0 0)
      = (if s = "" then 0 else cnLoop s.data 0 0)
    rw [if_neg hs, if_neg hs2]
    exact cnLoop_znorm s.data 0 0

/-- C9: the node upsert creates the row on the first save of a uri; on
conflict with an existing uri it replaces `content`, `parent_uri` and
`label` while leaving `doc_id` and `num_val` unchanged — in particular
the stored content is reset to the newly supplied text, discarding
whatever had accumulated under that uri. -/
theorem c9_upsert_frame (db : List Node) (d u l : String) (n : Nat) (c : String)
    (p : Option String) :
    ((¬ ∃ r ∈ db, r.uri = u) → save_node db d u l n c p = db ++ [⟨d, u, l, n, c, p⟩]) ∧
    ((∃ r ∈ db, r.uri = u) →
      save_node db d u l n c p
        = db.map (fun r => if r.uri = u then ⟨r.doc_id, r.uri, l, r.num_val, c, p⟩ else r)) := by
  constructor
  · intro h
    unfold save_node
    rw [if_neg (fun hc => h ((any_uri_iff db u).mp hc))]
  · intro h
    unfold save_node
    rw [if_pos ((any_uri_iff db u).mpr h)]

/-- C9 witness: a first save inserts the row; a second save of the same
uri in the same pass resets the accumulated content to the new header
text while keeping `doc_id` and `num_val`. -/
theorem c9_witness :
    save_node [] "D" "/d/c1" "chapter" 1 "第一章" none
      = [⟨"D", "/d/c1", "chapter", 1, "第一章", none⟩] ∧
    save_node [⟨"D", "/d/c1", "chapter", 1, "第一章 总则\n正文累积", none⟩]
        "D" "/d/c1" "chapter" 1 "第一章 重写" none
      = [⟨"D", "/d/c1", "chapter", 1, "第一章 重写", none⟩] := by
  constructor
  · exact (c9_upsert_frame [] "D" "/d/c1" "chapter" 1 "第一章" none).1 (by decide)
  · rw [(c9_upsert_frame [⟨"D", "/d/c1", "chapter", 1, "第一章 总则\n正文累积", none⟩]
      "D" "/d/c1" "chapter" 1 "第一章 重写" none).2 (by decide)]
    decide

/-- C10 counterexample: re-running `parse_and_store` for an existing
`doc_id` with changed metadata updates only the title — the stored
creator and date keep their original values, so the claimed full update
of title, creator and date fails. -/
theorem c10_counterexample :
    (parse_and_store (parse_and_store emptyStore "D" ⟨"t1", "c1", "2020-01-01"⟩ [])
        "D" ⟨"t2", "c2", "2021-01-01"⟩ []).legal_metadata
      = [⟨"D", "t2", "c1", "2020-01-01"⟩] ∧
    ¬ ((⟨"D", "t2", "c1", "2020-01-01"⟩ : MetaRow) = ⟨"D", "t2", "c2", "2021-01-01"⟩) :=
  ⟨by decide, by decide⟩

/-- C10 (amended): persisting a document writes its metadata record keyed
by `doc_id`: the first save creates the full record, and on conflict
only the title is replaced — creator and date retain the stored values. -/
theorem c10_metadata_upsert (tbl : List MetaRow) (d t c dt : String) (store : Store)
    (doc_id : String) (md : Metadata) (blocks : List String) :
    ((¬ ∃ m ∈ tbl, m.doc_id = d) → upsert_metadata tbl d t c dt = tbl ++ [⟨d, t, c, dt⟩]) ∧
    ((∃ m ∈ tbl, m.doc_id = d) →
      upsert_metadata tbl d t c dt
        = tbl.map (fun m => if m.doc_id = d then ⟨m.doc_id, t, m.creator, m.pub_date⟩ else m)) ∧
    (parse_and_store store doc_id md blocks).legal_metadata
      = upsert_metadata store.legal_metadata doc_id md.title md.creator md.date := by
  refine ⟨?_, ?_, rfl⟩
  · intro h
    unfold upsert_metadata
    rw [if_neg (fun hc => h (by simpa using hc))]
  · intro h
    unfold upsert_metadata
    rw [if_pos (List.any_eq_true.mpr (by simpa using h))]

/-- C10 witness: create on first save; on conflict only the title
changes. -/
theorem c10_witness :
    upsert_metadata [] "D" "t1" "c1" "2020" = [⟨"D", "t1", "c1", "2020"⟩] ∧
    upsert_metadata [⟨"D", "t1", "c1", "2020"⟩] "D" "t2" "c2" "2021"
      = [⟨"D", "t2", "c1", "2020"⟩] := by
  constructor
  · exact (c10_metadata_upsert [] "D" "t1" "c1" "2020" emptyStore "D"
      ⟨"t1", "c1", "2020"⟩ []).1 (by decide)
  · rw [(c10_metadata_upsert [⟨"D", "t1", "c1", "2020"⟩] "D" "t2" "c2" "2021" emptyStore "D"
      ⟨"t1", "c1", "2020"⟩ []).2.1 (by decide)]
    decide

/-- C4 counterexample: a stream beginning with an article header and no
chapter header yields the article row `/d/c1/a1` with
`parent_uri = "/d/c1"`, but no row with uri `/d/c1` exists in the store —
the synthesized chapter uri does not resolve to an existing chapter
node. -/
theorem c4_counterexample :
    (parse_and_store emptyStore "D" ⟨"t", "c", "d"⟩ ["第一条 测试"]).legal_nodes
      = [⟨"D", "/d/c1/a1", "section", 1, "第一条 测试", some "/d/c1"⟩] ∧
    ((parse_and_store emptyStore "D" ⟨"t", "c", "d"⟩ ["第一条 测试"]).legal_nodes.all
      (fun r => !(r.uri == "/d/c1"))) = true :=
  ⟨by decide, by decide⟩

/-- C4 (amended): when an article header arrives while no chapter has
ever been opened, the chapter uri `/{doc_id}/c1` is synthesized and the
article is saved with uri `/{doc_id}/c1/a{m}` and that synthesized
parent uri — the article is never orphaned in the uri scheme, though no
chapter node row is created for the synthesized uri. -/
theorem c4_orphan_fallback (doc_id : String) (st : PassState) (raw : String) (grp : List Char)
    (hch : chapterGroup (pyStrip raw).data = none)
    (ha : articleGroup (pyStrip raw).data = some grp)
    (hc : st.ctrl.current_c_uri = none) :
    stepBlock doc_id st raw =
      ⟨⟨some ("/" ++ pyLower doc_id ++ "/c1"),
        some ("/" ++ pyLower doc_id ++ "/c1" ++ "/a" ++ toString (article_val grp)), true⟩,
        save_node st.nodes doc_id
          ("/" ++ pyLower doc_id ++ "/c1" ++ "/a" ++ toString (article_val grp))
          "section" (article_val grp) (pyStrip raw)
          (some ("/" ++ pyLower doc_id ++ "/c1"))⟩ := by
  have hraw : ¬ raw = "" := articleGroup_raw_ne ha
  simp only [stepBlock, if_neg hraw, hch, articleStep, ha, hc]

/-- C4 witness: the orphan-article fallback at a concrete stream head. -/
theorem c4_witness :
    stepBlock "D" ⟨⟨none, none, false⟩, []⟩ "第一条 测试" =
      ⟨⟨some ("/" ++ pyLower "D" ++ "/c1"),
        some ("/" ++ pyLower "D" ++ "/c1" ++ "/a" ++ toString (article_val ['一'])), true⟩,
        save_node [] "D" ("/" ++ pyLower "D" ++ "/c1" ++ "/a" ++ toString (article_val ['一']))
          "section" (article_val ['一']) (pyStrip "第一条 测试")
          (some ("/" ++ pyLower "D" ++ "/c1"))⟩ :=
  c4_orphan_fallback "D" ⟨⟨none, none, false⟩, []⟩ "第一条 测试" ['一']
    (by decide) (by decide) rfl

/-- C6 counterexample: for the blocks `["第二条 A", "内容B", "内容C"]` the
article node's final content is `"第二条 A\n内容B\n内容C"`, not the
claimed `"第二条 A\nB\nC"`. -/
theorem c6_counterexample :
    (parse_and_store emptyStore "D" ⟨"t", "c", "d"⟩ ["第二条 A", "内容B", "内容C"]).legal_nodes
      = [⟨"D", "/d/c1/a2", "section", 2, "第二条 A\n内容B\n内容C", some "/d/c1"⟩] ∧
    ¬ (("第二条 A\n内容B\n内容C" : String) = "第二条 A\nB\nC") :=
  ⟨by decide, by decide⟩

/-- C6 (amended): once the body has been entered and a node is active,
every block matching neither boundary pattern nor the noise denylist is
appended to the active node's content with internal whitespace and
newlines removed and a single leading newline separator, in arrival
order (so the blocks of the spec example accumulate to
`"第二条 A\n内容B\n内容C"`); a block matching a denylist pattern
contributes nothing to any node's content even while a node is active. -/
theorem c6_content_accrual (doc_id : String) (st : PassState) (raw : String) (u : String)
    (hb : st.ctrl.has_entered_body = true) (hu : st.ctrl.active_uri = some u)
    (hraw : ¬ raw = "")
    (hch : chapterGroup (pyStrip raw).data = none)
    (ha : articleGroup (pyStrip raw).data = none) :
    (noiseMatch (pyStrip raw).data = true → stepBlock doc_id st raw = st) ∧
    (noiseMatch (pyStrip raw).data = false →
      stepBlock doc_id st raw
        = ⟨st.ctrl, append_content st.nodes ("\n" ++ pyClean (pyStrip raw)) u⟩) := by
  constructor
  · intro hn
    simp only [stepBlock, if_neg hraw, hch, articleStep, ha, contentStep, hb, hu]
    rw [if_pos hn]
  · intro hn
    simp only [stepBlock, if_neg hraw, hch, articleStep, ha, contentStep, hb, hu]
    rw [if_neg (by rw [hn]; exact Bool.false_ne_true)]

/-- C6 witness: a page-number footer contributes nothing while a node is
active; an ordinary body block is appended, cleaned and newline
prefixed. -/
theorem c6_witness :
    stepBlock "D" ⟨⟨some "/d/c1", some "/d/c1/a2", true⟩,
        [⟨"D", "/d/c1/a2", "section", 2, "第二条 A", some "/d/c1"⟩]⟩ "- 3 -"
      = ⟨⟨some "/d/c1", some "/d/c1/a2", true⟩,
        [⟨"D", "/d/c1/a2", "section", 2, "第二条 A", some "/d/c1"⟩]⟩ ∧
    stepBlock "D" ⟨⟨some "/d/c1", some "/d/c1/a2", true⟩,
        [⟨"D", "/d/c1/a2", "section", 2, "第二条 A", some "/d/c1"⟩]⟩ "内容B"
      = ⟨⟨some "/d/c1", some "/d/c1/a2", true⟩,
        append_content [⟨"D", "/d/c1/a2", "section", 2, "第二条 A", some "/d/c1"⟩]
          ("\n" ++ pyClean (pyStrip "内容B")) "/d/c1/a2"⟩ := by
  constructor
  · exact (c6_content_accrual "D" ⟨⟨some "/d/c1", some "/d/c1/a2", true⟩,
      [⟨"D", "/d/c1/a2", "section", 2, "第二条 A", some "/d/c1"⟩]⟩ "- 3 -" "/d/c1/a2"
      rfl rfl (by decide) (by decide) (by decide)).1 (by decide)
  · exact (c6_content_accrual "D" ⟨⟨some "/d/c1", some "/d/c1/a2", true⟩,
      [⟨"D", "/d/c1/a2", "section", 2, "第二条 A", some "/d/c1"⟩]⟩ "内容B" "/d/c1/a2"
      rfl rfl (by decide) (by decide) (by decide)).2 (by decide)

/-- C7: where the article number is normalized, an ASCII-digit numeral is
detected first (`str.isdigit`) and parsed directly as an integer, the
Chinese-numeral scan applying only otherwise — the saved node's
`num_val` is the decimal value of the digit group. -/
theorem c7_ascii_digits (doc_id : String) (st : PassState) (raw : String) (grp : List Char)
    (hch : chapterGroup (pyStrip raw).data = none)
    (ha : articleGroup (pyStrip raw).data = some grp)
    (hd : pyIsdigit grp = true) :
    ∃ c_uri, (stepBlock doc_id st raw).nodes
        = save_node st.nodes doc_id (c_uri ++ "/a" ++ toString (digitsToNat grp)) "section"
            (digitsToNat grp) (pyStrip raw) (some c_uri) := by
  have hraw : ¬ raw = "" := articleGroup_raw_ne ha
  have hv : article_val grp = digitsToNat grp := by
    unfold article_val
    rw [if_pos hd]
  refine ⟨(match st.ctrl.current_c_uri with
    | some c => c
    | none => "/" ++ pyLower doc_id ++ "/c1"), ?_⟩
  simp only [stepBlock, if_neg hraw, hch, articleStep, ha, hv]

/-- C7 witness: the article header `第12条` yields `num_val` 12. -/
theorem c7_witness :
    (∃ c_uri, (stepBlock "D" ⟨⟨none, none, false⟩, []⟩ "第12条 数字条文").nodes
        = save_node [] "D" (c_uri ++ "/a" ++ toString (digitsToNat ['1', '2'])) "section"
            (digitsToNat ['1', '2']) (pyStrip "第12条 数字条文") (some c_uri)) ∧
    digitsToNat ['1', '2'] = 12 :=
  ⟨c7_ascii_digits "D" ⟨⟨none, none, false⟩, []⟩ "第12条 数字条文" ['1', '2']
    (by decide) (by decide) (by decide), by decide⟩

/-- C2: for a block matching the chapter pattern, (a) while the body has
not been entered and the text contains a TOC marker (the literal `目录`
or an ellipsis run), the block is discarded entirely — the whole engine
state, nodes included, is unchanged; (b) the identical text arriving
after `entered_body` has become true is accepted: the current chapter
uri is set and a chapter node with that uri is persisted. -/
theorem c2_toc_suppression (doc_id : String) (st : PassState) (raw : String) (grp : List Char)
    (hch : chapterGroup (pyStrip raw).data = some grp) :
    (st.ctrl.has_entered_body = false →
      (containsSub "目录".data (pyStrip raw).data = true ∨
        containsSub "...".data (pyStrip raw).data = true) →
      stepBlock doc_id st raw = st) ∧
    (st.ctrl.has_entered_body = true →
      (stepBlock doc_id st raw).ctrl.current_c_uri
          = some (mkChapterUri doc_id (cn_to_int (some (String.mk grp)))) ∧
      ∃ r ∈ (stepBlock doc_id st raw).nodes,
        r.uri = mkChapterUri doc_id (cn_to_int (some (String.mk grp))) ∧ r.label = "chapter") := by
  have hraw : ¬ raw = "" := chapterGroup_raw_ne hch
  constructor
  · intro hb htoc
    have hcond : (!st.ctrl.has_entered_body &&
        (containsSub "目录".data (pyStrip raw).data ||
         containsSub "...".data (pyStrip raw).data)) = true := by
      rw [hb]
      rcases htoc with h | h
      · rw [h]
        rfl
      · rw [h]
        simp
    simp only [stepBlock, if_neg hraw, hch]
    rw [if_pos hcond]
  · intro hb
    have hcond : ¬ (!st.ctrl.has_entered_body &&
        (containsSub "目录".data (pyStrip raw).data ||
         containsSub "...".data (pyStrip raw).data)) = true := by
      rw [hb]
      simp
    cases hsp : findSectionSplit (pyStrip raw).data with
    | none =>
      constructor
      · simp only [stepBlock, if_neg hraw, hch, hsp]
        rw [if_neg hcond]
      · simp only [stepBlock, if_neg hraw, hch, hsp]
        rw [if_neg hcond]
        exact save_node_mem st.nodes doc_id
          (mkChapterUri doc_id (cn_to_int (some (String.mk grp)))) "chapter"
          (cn_to_int (some (String.mk grp))) (pyStrip raw) none
    | some i =>
      have hpres := articleStep_preserves_chapter doc_id
        ⟨⟨some (mkChapterUri doc_id (cn_to_int (some (String.mk grp)))),
          some (mkChapterUri doc_id (cn_to_int (some (String.mk grp)))),
          st.ctrl.has_entered_body⟩,
         save_node st.nodes doc_id (mkChapterUri doc_id (cn_to_int (some (String.mk grp))))
           "chapter" (cn_to_int (some (String.mk grp)))
           (String.mk (pyStripL ((pyStrip raw).data.take i))) none⟩
        (String.mk (pyStripL ((pyStrip raw).data.drop i)))
        (mkChapterUri doc_id (cn_to_int (some (String.mk grp)))) rfl
        (save_node_mem st.nodes doc_id
          (mkChapterUri doc_id (cn_to_int (some (String.mk grp)))) "chapter"
          (cn_to_int (some (String.mk grp)))
          (String.mk (pyStripL ((pyStrip raw).data.take i))) none)
      constructor
      · simp only [stepBlock, if_neg hraw, hch, hsp]
        rw [if_neg hcond]
        exact hpres.1
      · simp only [stepBlock, if_neg hraw, hch, hsp]
        rw [if_neg hcond]
        exact hpres.2

/-- C2 witness: a TOC-looking chapter line before the body is discarded
with the state unchanged; the identical line with `entered_body` true is
persisted as a chapter node. -/
theorem c2_witness :
    stepBlock "D" ⟨⟨none, none, false⟩, []⟩ "第一章 总则 ... 目录" = ⟨⟨none, none, false⟩, []⟩ ∧
    ∃ r ∈ (stepBlock "D" ⟨⟨none, none, true⟩, []⟩ "第一章 总则 ... 目录").nodes,
      r.uri = mkChapterUri "D" (cn_to_int (some (String.mk ['一']))) ∧ r.label = "chapter" := by
  constructor
  · exact (c2_toc_suppression "D" ⟨⟨none, none, false⟩, []⟩ "第一章 总则 ... 目录" ['一']
      (by decide)).1 rfl (Or.inl (by decide))
  · exact ((c2_toc_suppression "D" ⟨⟨none, none, true⟩, []⟩ "第一章 总则 ... 目录" ['一']
      (by decide)).2 rfl).2

/-- C1 counterexample: a merged chapter+article block that also carries a
TOC marker while the body has not been entered is discarded whole — no
chapter node is persisted and the embedded first article is dropped,
refuting the unconditional repair claim. -/
theorem c1_counterexample :
    chapterGroup (pyStrip "第一章 总则 目录\n第一条 为了测试").data = some ['一'] ∧
    (findSectionSplit (pyStrip "第一章 总则 目录\n第一条 为了测试").data).isSome = true ∧
    (parse_and_store emptyStore "D" ⟨"t", "c", "d"⟩
      ["第一章 总则 目录\n第一条 为了测试"]).legal_nodes = [] :=
  ⟨by decide, by decide, by decide⟩

/-- C1 (amended): for every block matching the chapter pattern that also
contains an embedded article marker after whitespace, unless the block
is TOC-suppressed (body not yet entered and the text contains `目录` or
an ellipsis run), the block is split at the start of the whitespace run:
a chapter node with the stripped prefix as content is persisted, and the
stripped suffix is re-evaluated by the article-boundary test in the same
iteration — it always passes it, so the article node under that chapter
is persisted with the suffix as its initial content and is never
dropped. -/
theorem c1_merged_boundary_repair (doc_id : String) (st : PassState) (raw : String)
    (grp : List Char) (i : Nat)
    (hch : chapterGroup (pyStrip raw).data = some grp)
    (hsp : findSectionSplit (pyStrip raw).data = some i)
    (hnotoc : (!st.ctrl.has_entered_body &&
      (containsSub "目录".data (pyStrip raw).data ||
       containsSub "...".data (pyStrip raw).data)) = false) :
    ∃ agrp, articleGroup (pyStripL ((pyStrip raw).data.drop i)) = some agrp ∧
      stepBlock doc_id st raw =
        ⟨⟨some (mkChapterUri doc_id (cn_to_int (some (String.mk grp)))),
          some (mkChapterUri doc_id (cn_to_int (some (String.mk grp))) ++ "/a" ++
            toString (article_val agrp)), true⟩,
          save_node
            (save_node st.nodes doc_id (mkChapterUri doc_id (cn_to_int (some (String.mk grp))))
              "chapter" (cn_to_int (some (String.mk grp)))
              (String.mk (pyStripL ((pyStrip raw).data.take i))) none)
            doc_id
            (mkChapterUri doc_id (cn_to_int (some (String.mk grp))) ++ "/a" ++
              toString (article_val agrp))
            "section" (article_val agrp)
            (String.mk (pyStripL ((pyStrip raw).data.drop i)))
            (some (mkChapterUri doc_id (cn_to_int (some (String.mk grp)))))⟩ := by
  have hraw : ¬ raw = "" := chapterGroup_raw_ne hch
  obtain ⟨agrp, hart⟩ := split_suffix_article hsp
  refine ⟨agrp, hart, ?_⟩
  have hart2 : articleGroup (String.mk (pyStripL ((pyStrip raw).data.drop i))).data = some agrp :=
    hart
  simp only [stepBlock, if_neg hraw, hch, hsp]
  rw [if_neg (by rw [hnotoc]; exact Bool.false_ne_true)]
  simp only [articleStep, hart2]

/-- C1 witness: the spec's merge-repair example block yields the chapter
node with content exactly the prefix and the article node with the
suffix as initial content, in one iteration. -/
theorem c1_witness :
    ∃ agrp, articleGroup (pyStripL ((pyStrip "第一章 总则\n第一条 为了规范").data.drop 6))
        = some agrp ∧
      stepBlock "GSF" ⟨⟨none, none, false⟩, []⟩ "第一章 总则\n第一条 为了规范" =
        ⟨⟨some (mkChapterUri "GSF" (cn_to_int (some (String.mk ['一'])))),
          some (mkChapterUri "GSF" (cn_to_int (some (String.mk ['一']))) ++ "/a" ++
            toString (article_val agrp)), true⟩,
          save_node
            (save_node [] "GSF" (mkChapterUri "GSF" (cn_to_int (some (String.mk ['一']))))
              "chapter" (cn_to_int (some (String.mk ['一'])))
              (String.mk (pyStripL ((pyStrip "第一章 总则\n第一条 为了规范").data.take 6))) none)
            "GSF"
            (mkChapterUri "GSF" (cn_to_int (some (String.mk ['一']))) ++ "/a" ++
              toString (article_val agrp))
            "section" (article_val agrp)
            (String.mk (pyStripL ((pyStrip "第一章 总则\n第一条 为了规范").data.drop 6)))
            (some (mkChapterUri "GSF" (cn_to_int (some (String.mk ['一'])))))⟩ :=
  c1_merged_boundary_repair "GSF" ⟨⟨none, none, false⟩, []⟩ "第一章 总则\n第一条 为了规范"
    ['一'] 6 (by decide) (by decide) (by decide)

end LiiProcessor
